import Mathlib

/-!
Verification development for the le_go log-shipping client.

The Go sources are shallowly embedded at the byte level: a Go string or
byte slice is a `List Nat` of its bytes (newline is byte 10, space is
byte 32, the U+2028 line separator is the UTF-8 byte triple
226/128/168).  Pure record-framing code is translated to pure Lean
functions; code whose behaviour depends on the network or the scheduler
is translated to functions over an explicit oracle describing the
outcome of each external step, and the externally visible actions are
collected in an event list.
-/

/-- Byte-level count of newline bytes; models Go strings.Count(s, lineSep)
for the single-byte separator lineSep = the newline character. -/
def countNL : List Nat → Nat
  | [] => 0
  | b :: r => (if b = 10 then 1 else 0) + countNL r

/-- UTF-8 bytes of the U+2028 unicode line separator. -/
def u2028 : List Nat := [226, 128, 168]

/-- Models Go strings.Replace(s, lineSep, u2028, n) for n not negative:
replace the first n newline bytes by the U+2028 byte sequence
(le.go, Output, the escaping step before dispatch). -/
def replaceNL : List Nat → Nat → List Nat
  | s, 0 => s
  | [], _ + 1 => []
  | b :: r, n + 1 => if b = 10 then u2028 ++ replaceNL r n else b :: replaceNL r (n + 1)

/-- Replace every newline byte by the U+2028 byte sequence.  This is the
replacement loop of makeBuf in the retry-capable variant, and also the
limit case of `replaceNL`. -/
def replaceAllNL : List Nat → List Nat
  | [] => []
  | b :: r => if b = 10 then u2028 ++ replaceAllNL r else b :: replaceAllNL r

/-- The escaping step of le.go Output: count the newline bytes and
replace all but the last one (strings.Replace with count-1).  When the
count is zero, Go passes -1 and replaces all occurrences of which there
are none; returning the payload unchanged is the same behaviour. -/
def escapeRecord (p : List Nat) : List Nat := replaceNL p (countNL p - 1)

/-- Last byte of a byte string, if any; models s[len(s)-1]. -/
def lastByte : List Nat → Option Nat
  | [] => none
  | [b] => some b
  | _ :: c :: r => lastByte (c :: r)

/-- Condition of le.go writeToLogEntries for appending the trailing
newline to a chunk: len(s) == 0 or s[len(s)-1] is not a newline. -/
def needTrailNL (s : List Nat) : Bool :=
  match lastByte s with
  | none => true
  | some b => if b = 10 then false else true

/-- Maximum frame size from le.go (const maxLogLength). -/
def maxLogLength : Nat := 65000

/-- One chunk buffer as assembled by le.go writeToLogEntries lines
448-454: token, one space, the formatted header, the payload slice
s[i:e], and a trailing newline whenever s itself does not end in one.
The header bytes (prefix, optional date/time and file:line fields) are
taken as an opaque parameter hdr. -/
def chunkBuf (tok hdr s : List Nat) (i e : Nat) : List Nat :=
  tok ++ 32 :: (hdr ++ (s.drop i).take (e - i) ++ (if needTrailNL s then [10] else []))

/-- The buffer for a payload that fits in a single chunk. -/
def frameBuf (tok hdr s : List Nat) : List Nat := chunkBuf tok hdr s 0 s.length

/-- Full single-chunk framing of a payload: the escaping step of Output
followed by the buffer assembly of writeToLogEntries. -/
def outFrame (tok hdr p : List Nat) : List Nat := frameBuf tok hdr (escapeRecord p)

/-- Externally visible actions of the chunking loop of
writeToLogEntries: setting the write deadline, and one physical write
of a buffer. -/
inductive WEvent where
  | setDeadline : WEvent
  | write : List Nat → WEvent
deriving DecidableEq

/-- The chunking loop of le.go writeToLogEntries (lines 443-471) on its
success trace: every SetWriteDeadline call succeeds and every physical
write succeeds, returning the full buffer length n, after which the loop
advances i by n.  Each iteration takes the slice s[i : i+maxLogLength-2]
(capped at len(s)), builds the chunk buffer, sets the write deadline and
writes the buffer. -/
def writeEvents (tok hdr s : List Nat) (i : Nat) : List WEvent :=
  if _h : i < s.length then
    WEvent.setDeadline ::
      WEvent.write (chunkBuf tok hdr s i (min (i + (maxLogLength - 2)) s.length)) ::
      writeEvents tok hdr s (i + (chunkBuf tok hdr s i (min (i + (maxLogLength - 2)) s.length)).length)
  else []
termination_by s.length - i
decreasing_by
  have h1 : 0 < (chunkBuf tok hdr s i (min (i + (maxLogLength - 2)) s.length)).length := by
    simp only [chunkBuf, List.length_append, List.length_cons]
    omega
  omega

/-- Recognizer for physical-write events. -/
def isWrite : WEvent → Bool
  | WEvent.write _ => true
  | WEvent.setDeadline => false

/-- Number of physical writes in an event trace. -/
def countWrites (es : List WEvent) : Nat := es.countP isWrite

/-- Every physical write is immediately preceded by its own fresh
write-deadline-set call: the trace is a sequence of deadline/write
pairs. -/
def isPaired : List WEvent → Bool
  | [] => true
  | WEvent.setDeadline :: WEvent.write _ :: r => isPaired r
  | _ => false

/-- The index advance of the writeToLogEntries loop per successful
physical write: the loop steps i by the byte count returned by the
write, which on success is the whole buffer length — token, one space
byte, the header, the payload slice of up to maxLogLength - 2 bytes,
and the conditional trailing newline.  Note this advance exceeds the
maxLogLength - 2 payload bytes a frame actually carries by the
token/space/header/newline overhead, so at every chunk boundary up to
that many payload bytes are stepped over without ever being written. -/
def perWriteAdvance (tok hdr s : List Nat) : Nat :=
  tok.length + 1 + hdr.length + (maxLogLength - 2) + (if needTrailNL s then 1 else 0)

/-- Ceiling division on naturals. -/
def ceilDivNat (a b : Nat) : Nat := (a + b - 1) / b

example : escapeRecord [49, 10, 50, 10, 51, 10] = [49, 226, 128, 168, 50, 226, 128, 168, 51, 10] := by decide

example : escapeRecord [97, 10, 98] = [97, 10, 98] := by decide

example : countNL (escapeRecord [49, 10, 50, 10, 51, 10]) = 1 := by decide

example : outFrame [116] [] [49, 50, 51] = [116, 32, 49, 50, 51, 10] := by decide

example : outFrame [116] [] [49, 50, 51, 10] = [116, 32, 49, 50, 51, 10] := by decide

theorem writeEvents_unfold (tok hdr s : List Nat) (i : Nat) :
    writeEvents tok hdr s i =
      if i < s.length then
        WEvent.setDeadline ::
          WEvent.write (chunkBuf tok hdr s i (min (i + (maxLogLength - 2)) s.length)) ::
          writeEvents tok hdr s (i + (chunkBuf tok hdr s i (min (i + (maxLogLength - 2)) s.length)).length)
      else [] := by
  rw [writeEvents]
  simp

theorem countNL_append (l1 l2 : List Nat) : countNL (l1 ++ l2) = countNL l1 + countNL l2 := by
  induction l1 with
  | nil => simp [countNL]
  | cons b r ih =>
    rw [List.cons_append]
    show (if b = 10 then 1 else 0) + countNL (r ++ l2) = (if b = 10 then 1 else 0) + countNL r + countNL l2
    rw [ih]
    omega

theorem countNL_replaceAllNL (l : List Nat) : countNL (replaceAllNL l) = 0 := by
  induction l with
  | nil => rfl
  | cons b r ih =>
    by_cases hb : b = 10
    · rw [replaceAllNL, if_pos hb, countNL_append, ih]
      decide
    · rw [replaceAllNL, if_neg hb]
      show (if b = 10 then 1 else 0) + countNL (replaceAllNL r) = 0
      rw [if_neg hb, ih]

theorem length_replaceAllNL (l : List Nat) : (replaceAllNL l).length = l.length + 2 * countNL l := by
  induction l with
  | nil => rfl
  | cons b r ih =>
    by_cases hb : b = 10
    · rw [replaceAllNL, if_pos hb, List.length_append, ih]
      show 3 + (r.length + 2 * countNL r) = (b :: r).length + 2 * countNL (b :: r)
      rw [List.length_cons]
      show 3 + (r.length + 2 * countNL r) = r.length + 1 + 2 * ((if b = 10 then 1 else 0) + countNL r)
      rw [if_pos hb]
      omega
    · rw [replaceAllNL, if_neg hb, List.length_cons, ih, List.length_cons]
      show r.length + 2 * countNL r + 1 = r.length + 1 + 2 * ((if b = 10 then 1 else 0) + countNL r)
      rw [if_neg hb]
      omega

theorem replaceAllNL_of_countNL_zero (l : List Nat) (h : countNL l = 0) : replaceAllNL l = l := by
  induction l with
  | nil => rfl
  | cons b r ih =>
    have hb : b ≠ 10 := by
      intro hb
      rw [show countNL (b :: r) = (if b = 10 then 1 else 0) + countNL r from rfl, if_pos hb] at h
      omega
    have hr : countNL r = 0 := by
      rw [show countNL (b :: r) = (if b = 10 then 1 else 0) + countNL r from rfl, if_neg hb] at h
      omega
    rw [replaceAllNL, if_neg hb, ih hr]

theorem replaceNL_decomp (u v : List Nat) :
    replaceNL (u ++ 10 :: v) (countNL u) = replaceAllNL u ++ 10 :: v := by
  induction u with
  | nil => rfl
  | cons b r ih =>
    by_cases hb : b = 10
    · subst hb
      have hc : countNL (10 :: r) = countNL r + 1 := by
        show (if (10 : Nat) = 10 then 1 else 0) + countNL r = countNL r + 1
        rw [if_pos rfl]
        omega
      rw [hc, List.cons_append]
      show (if (10 : Nat) = 10 then u2028 ++ replaceNL (r ++ 10 :: v) (countNL r)
        else 10 :: replaceNL (r ++ 10 :: v) (countNL r + 1)) = replaceAllNL (10 :: r) ++ 10 :: v
      rw [if_pos rfl, ih, replaceAllNL, if_pos rfl, List.append_assoc]
    · have hc : countNL (b :: r) = countNL r := by
        show (if b = 10 then 1 else 0) + countNL r = countNL r
        rw [if_neg hb]
        omega
      rw [hc, List.cons_append]
      cases hcr : countNL r with
      | zero =>
        show b :: (r ++ 10 :: v) = replaceAllNL (b :: r) ++ 10 :: v
        rw [replaceAllNL, if_neg hb, replaceAllNL_of_countNL_zero r hcr, List.cons_append]
      | succ n =>
        show (if b = 10 then u2028 ++ replaceNL (r ++ 10 :: v) n
          else b :: replaceNL (r ++ 10 :: v) (n + 1)) = replaceAllNL (b :: r) ++ 10 :: v
        rw [if_neg hb, ← hcr, ih, replaceAllNL, if_neg hb, List.cons_append]

theorem exists_last_nl (p : List Nat) (h : 1 ≤ countNL p) :
    ∃ u v, p = u ++ 10 :: v ∧ countNL v = 0 := by
  induction p with
  | nil => exact absurd h (by decide)
  | cons b r ih =>
    by_cases hr : 1 ≤ countNL r
    · obtain ⟨u, v, h1, h2⟩ := ih hr
      exact ⟨b :: u, v, by rw [h1, List.cons_append], h2⟩
    · have hr0 : countNL r = 0 := by omega
      have hb : b = 10 := by
        by_contra hb
        rw [show countNL (b :: r) = (if b = 10 then 1 else 0) + countNL r from rfl,
          if_neg hb, hr0] at h
        omega
      exact ⟨[], r, by rw [hb, List.nil_append], hr0⟩

theorem lastByte_append (l1 l2 : List Nat) (h : l2 ≠ []) :
    lastByte (l1 ++ l2) = lastByte l2 := by
  induction l1 with
  | nil => rfl
  | cons a t ih =>
    rw [List.cons_append]
    rcases hq : t ++ l2 with _ | ⟨c, r⟩
    · rcases List.append_eq_nil.mp hq with ⟨_, h2⟩
      exact absurd h2 h
    · show lastByte (c :: r) = lastByte l2
      rw [← hq]
      exact ih

theorem lastByte_ne_nl (l : List Nat) (h : countNL l = 0) : lastByte l ≠ some 10 := by
  induction l with
  | nil => simp [lastByte]
  | cons b r ih =>
    cases r with
    | nil =>
      have hb : b ≠ 10 := by
        intro hb
        rw [show countNL [b] = (if b = 10 then 1 else 0) + 0 from rfl, if_pos hb] at h
        omega
      show some b ≠ some 10
      simp [hb]
    | cons c w =>
      have hw : countNL (c :: w) = 0 := by
        rw [show countNL (b :: c :: w) = (if b = 10 then 1 else 0) + countNL (c :: w) from rfl] at h
        omega
      show lastByte (c :: w) ≠ some 10
      exact ih hw

theorem lastByte_isSome (b : Nat) (l : List Nat) : ∃ c, lastByte (b :: l) = some c := by
  induction l generalizing b with
  | nil => exact ⟨b, rfl⟩
  | cons c w ih => exact ih c

theorem countNL_pos_of_lastByte_nl (l : List Nat) (h : lastByte l = some 10) :
    1 ≤ countNL l := by
  by_contra hc
  exact lastByte_ne_nl l (by omega) h

theorem frameBuf_eq (tok hdr s : List Nat) :
    frameBuf tok hdr s =
      tok ++ 32 :: (hdr ++ s ++ (if needTrailNL s then [10] else [])) := by
  rw [frameBuf, chunkBuf, List.drop_zero, Nat.sub_zero, List.take_length]

theorem replaceNL_zero (l : List Nat) : replaceNL l 0 = l := by
  cases l <;> rfl

theorem escapeRecord_decomp (p u v : List Nat) (hp : p = u ++ 10 :: v) (hv : countNL v = 0) :
    escapeRecord p = replaceAllNL u ++ 10 :: v := by
  have hcp : countNL p = countNL u + 1 := by
    rw [hp, countNL_append]
    show countNL u + ((if (10 : Nat) = 10 then 1 else 0) + countNL v) = countNL u + 1
    rw [if_pos rfl, hv]
  rw [escapeRecord, hcp, Nat.add_sub_cancel, hp, replaceNL_decomp]

/-- C1: for a payload with k embedded newline bytes (k at least 1), the
escaping step of le.go Output replaces exactly the first k-1 of them
with the U+2028 sequence — i.e. all occurrences except the final one,
which survives — and the framed single-chunk output ends in exactly one
trailing newline terminator.  Exactly one newline survives escaping, the
escaped length grows by two bytes per substitution (so exactly k-1
substitutions happened), any last-newline decomposition of the payload
is mapped to full replacement left of the final newline, and the frame
is some prefix not ending in a newline followed by one newline. -/
theorem escape_replaces_all_but_last (tok hdr p : List Nat)
    (hk : 1 ≤ countNL p) (hh : countNL hdr = 0) :
    countNL (escapeRecord p) = 1
    ∧ (escapeRecord p).length = p.length + 2 * (countNL p - 1)
    ∧ (∀ u v, p = u ++ 10 :: v → countNL v = 0 → escapeRecord p = replaceAllNL u ++ 10 :: v)
    ∧ (∃ m, outFrame tok hdr p = m ++ [10] ∧ lastByte m ≠ some 10) := by
  obtain ⟨u, v, hp, hv⟩ := exists_last_nl p hk
  have hesc : escapeRecord p = replaceAllNL u ++ 10 :: v := escapeRecord_decomp p u v hp hv
  have hcp : countNL p = countNL u + 1 := by
    rw [hp, countNL_append]
    show countNL u + ((if (10 : Nat) = 10 then 1 else 0) + countNL v) = countNL u + 1
    rw [if_pos rfl, hv]
  refine ⟨?_, ?_, fun u2 v2 hp2 hv2 => escapeRecord_decomp p u2 v2 hp2 hv2, ?_⟩
  · rw [hesc, countNL_append, countNL_replaceAllNL]
    show 0 + ((if (10 : Nat) = 10 then 1 else 0) + countNL v) = 1
    rw [if_pos rfl, hv]
  · rw [hesc, List.length_append, length_replaceAllNL, List.length_cons, hcp, hp,
      List.length_append, List.length_cons]
    omega
  · cases v with
    | nil =>
      have hlast : lastByte (escapeRecord p) = some 10 := by
        rw [hesc, lastByte_append (replaceAllNL u) (10 :: []) (by simp)]
        rfl
      have hneed : needTrailNL (escapeRecord p) = false := by
        simp [needTrailNL, hlast]
      refine ⟨tok ++ 32 :: (hdr ++ replaceAllNL u), ?_, ?_⟩
      · rw [outFrame, frameBuf_eq, hneed, hesc]
        simp [List.append_assoc]
      · rw [lastByte_append tok (32 :: (hdr ++ replaceAllNL u)) (by simp)]
        apply lastByte_ne_nl
        show (if (32 : Nat) = 10 then 1 else 0) + countNL (hdr ++ replaceAllNL u) = 0
        rw [if_neg (by decide), countNL_append, hh, countNL_replaceAllNL]
    | cons c w =>
      have hlv : lastByte (escapeRecord p) = lastByte (c :: w) := by
        rw [hesc, lastByte_append (replaceAllNL u) (10 :: c :: w) (by simp)]
        rfl
      obtain ⟨d, hd⟩ := lastByte_isSome c w
      have hdne : d ≠ 10 := by
        intro h10
        exact lastByte_ne_nl (c :: w) hv (by rw [hd, h10])
      have hneed : needTrailNL (escapeRecord p) = true := by
        simp [needTrailNL, hlv, hd, hdne]
      refine ⟨tok ++ 32 :: (hdr ++ escapeRecord p), ?_, ?_⟩
      · rw [outFrame, frameBuf_eq, hneed]
        simp [List.append_assoc]
      · rw [lastByte_append tok (32 :: (hdr ++ escapeRecord p)) (by simp),
          show (32 : Nat) :: (hdr ++ escapeRecord p) = (32 :: hdr) ++ escapeRecord p from rfl,
          lastByte_append (32 :: hdr) (escapeRecord p) (by rw [hesc]; simp), hlv, hd]
        simp [hdne]

/-- C3: a payload that does not end in a newline gets exactly one
trailing newline appended by the framing step, and the framed output
ends in exactly one terminator; a payload that already ends in a
newline gets no duplicate appended (the append condition of
writeToLogEntries is false) and the framed output still ends in exactly
one terminator. -/
theorem framed_output_single_trailing_terminator (tok hdr p : List Nat)
    (hh : countNL hdr = 0) :
    (p ≠ [] → lastByte p ≠ some 10 →
       needTrailNL (escapeRecord p) = true
       ∧ ∃ m, outFrame tok hdr p = m ++ [10] ∧ lastByte m ≠ some 10)
    ∧ (lastByte p = some 10 →
       needTrailNL (escapeRecord p) = false
       ∧ ∃ m, outFrame tok hdr p = m ++ [10] ∧ lastByte m ≠ some 10) := by
  constructor
  · intro _hne hl
    by_cases hk : 1 ≤ countNL p
    · obtain ⟨u, v, hp, hv⟩ := exists_last_nl p hk
      have hesc := escapeRecord_decomp p u v hp hv
      cases v with
      | nil =>
        exfalso
        apply hl
        rw [hp, lastByte_append u (10 :: []) (by simp)]
        rfl
      | cons c w =>
        have hlv : lastByte (escapeRecord p) = lastByte (c :: w) := by
          rw [hesc, lastByte_append (replaceAllNL u) (10 :: c :: w) (by simp)]
          rfl
        obtain ⟨d, hd⟩ := lastByte_isSome c w
        have hdne : d ≠ 10 := fun h10 => lastByte_ne_nl (c :: w) hv (by rw [hd, h10])
        have hneed : needTrailNL (escapeRecord p) = true := by
          simp [needTrailNL, hlv, hd, hdne]
        refine ⟨hneed, tok ++ 32 :: (hdr ++ escapeRecord p), ?_, ?_⟩
        · rw [outFrame, frameBuf_eq, hneed]
          simp [List.append_assoc]
        · rw [lastByte_append tok (32 :: (hdr ++ escapeRecord p)) (by simp),
            show (32 : Nat) :: (hdr ++ escapeRecord p) = (32 :: hdr) ++ escapeRecord p from rfl,
            lastByte_append (32 :: hdr) (escapeRecord p) (by rw [hesc]; simp), hlv, hd]
          simp [hdne]
    · have hk0 : countNL p = 0 := by omega
      have hesc : escapeRecord p = p := by
        rw [escapeRecord, hk0]
        exact replaceNL_zero p
      have hneed : needTrailNL (escapeRecord p) = true := by
        rw [hesc]
        cases hp : lastByte p with
        | none => simp [needTrailNL, hp]
        | some b =>
          have hbne : b ≠ 10 := fun hb => hl (by rw [hp, hb])
          simp [needTrailNL, hp, hbne]
      refine ⟨hneed, tok ++ 32 :: (hdr ++ p), ?_, ?_⟩
      · rw [outFrame, frameBuf_eq, hneed, hesc]
        simp [List.append_assoc]
      · rw [lastByte_append tok (32 :: (hdr ++ p)) (by simp)]
        apply lastByte_ne_nl
        show (if (32 : Nat) = 10 then 1 else 0) + countNL (hdr ++ p) = 0
        rw [if_neg (by decide), countNL_append, hh, hk0]
  · intro hl
    have hk : 1 ≤ countNL p := countNL_pos_of_lastByte_nl p hl
    obtain ⟨u, v, hp, hv⟩ := exists_last_nl p hk
    cases v with
    | cons c w =>
      exfalso
      obtain ⟨d, hd⟩ := lastByte_isSome c w
      have hpl : lastByte p = lastByte (c :: w) := by
        rw [hp, lastByte_append u (10 :: c :: w) (by simp)]
        rfl
      rw [hpl, hd] at hl
      have h10 : d = 10 := Option.some.inj hl
      exact lastByte_ne_nl (c :: w) hv (by rw [hd, h10])
    | nil =>
      have hesc := escapeRecord_decomp p u [] hp hv
      have hlast : lastByte (escapeRecord p) = some 10 := by
        rw [hesc, lastByte_append (replaceAllNL u) (10 :: []) (by simp)]
        rfl
      have hneed : needTrailNL (escapeRecord p) = false := by
        simp [needTrailNL, hlast]
      refine ⟨hneed, tok ++ 32 :: (hdr ++ replaceAllNL u), ?_, ?_⟩
      · rw [outFrame, frameBuf_eq, hneed, hesc]
        simp [List.append_assoc]
      · rw [lastByte_append tok (32 :: (hdr ++ replaceAllNL u)) (by simp)]
        apply lastByte_ne_nl
        show (if (32 : Nat) = 10 then 1 else 0) + countNL (hdr ++ replaceAllNL u) = 0
        rw [if_neg (by decide), countNL_append, hh, countNL_replaceAllNL]

theorem chunkBuf_length (tok hdr s : List Nat) (i : Nat) :
    (chunkBuf tok hdr s i (min (i + (maxLogLength - 2)) s.length)).length =
      tok.length + 1 + hdr.length + min (maxLogLength - 2) (s.length - i)
        + (if needTrailNL s then 1 else 0) := by
  rw [chunkBuf, List.length_append, List.length_cons, List.length_append, List.length_append,
    List.length_take, List.length_drop]
  have hm : min (min (i + (maxLogLength - 2)) s.length - i) (s.length - i)
      = min (maxLogLength - 2) (s.length - i) := by
    rcases Nat.le_total (i + (maxLogLength - 2)) s.length with hc | hc
    · rw [Nat.min_eq_left hc, Nat.add_sub_cancel_left]
    · rw [Nat.min_eq_right hc, Nat.min_self, Nat.min_eq_right (by omega)]
  rw [hm]
  have hite : (if needTrailNL s then ([10] : List Nat) else []).length
      = (if needTrailNL s then 1 else 0) := by
    cases needTrailNL s <;> rfl
  rw [hite]
  omega

theorem ceilDivNat_zero (b : Nat) : ceilDivNat 0 b = 0 := by
  rw [ceilDivNat]
  cases b with
  | zero => rfl
  | succ n => exact Nat.div_eq_of_lt (by omega)

theorem ceilDivNat_step (r e : Nat) (hr : 1 ≤ r) (he : 1 ≤ e) :
    ceilDivNat r e = 1 + ceilDivNat (r - e) e := by
  rw [ceilDivNat, ceilDivNat]
  rcases Nat.le_total r e with h | h
  · have h2 : r - e = 0 := by omega
    rw [h2]
    have h3 : r + e - 1 = (r - 1) + e := by omega
    rw [h3, Nat.add_div_right _ (by omega), Nat.div_eq_of_lt (by omega)]
    have h4 : (0 + e - 1) / e = 0 := Nat.div_eq_of_lt (by omega)
    rw [h4]
  · have h1 : r + e - 1 = (r - e + e - 1) + e := by omega
    rw [h1, Nat.add_div_right _ (by omega)]
    omega

theorem countWrites_writeEvents (tok hdr s : List Nat) :
    ∀ m i, s.length - i ≤ m →
      countWrites (writeEvents tok hdr s i)
        = ceilDivNat (s.length - i) (perWriteAdvance tok hdr s) := by
  intro m
  induction m with
  | zero =>
    intro i hm
    have hi : ¬ i < s.length := by omega
    rw [writeEvents_unfold, if_neg hi]
    have h0 : s.length - i = 0 := by omega
    rw [h0, ceilDivNat_zero]
    rfl
  | succ m ih =>
    intro i hm
    by_cases hi : i < s.length
    · rw [writeEvents_unfold, if_pos hi]
      rw [show countWrites (WEvent.setDeadline :: WEvent.write
          (chunkBuf tok hdr s i (min (i + (maxLogLength - 2)) s.length)) ::
          writeEvents tok hdr s (i + (chunkBuf tok hdr s i
            (min (i + (maxLogLength - 2)) s.length)).length))
        = countWrites (writeEvents tok hdr s (i + (chunkBuf tok hdr s i
            (min (i + (maxLogLength - 2)) s.length)).length)) + 1 from by
          rw [countWrites, countWrites, List.countP_cons, List.countP_cons]
          rfl]
      rw [chunkBuf_length]
      set a := (if needTrailNL s then 1 else 0) with ha
      have ha01 : a = 0 ∨ a = 1 := by
        rw [ha]
        cases needTrailNL s
        · exact Or.inl rfl
        · exact Or.inr rfl
      set t := tok.length + 1 + hdr.length with ht
      have ht1 : 1 ≤ t := by omega
      set c := maxLogLength - 2 with hc
      have hc1 : c = 64998 := by rw [hc]; rfl
      set e := perWriteAdvance tok hdr s with he
      have hee : e = t + c + a := by
        rw [he, perWriteAdvance, ← ha, ← ht, ← hc]
      set l := t + min c (s.length - i) + a with hl
      have hrec := ih (i + l) (by omega)
      rw [hrec]
      have hrl : s.length - (i + l) = (s.length - i) - e := by
        rcases Nat.le_total (s.length - i) c with hx | hx
        · rw [hl, Nat.min_eq_right hx] at *
          omega
        · rw [hl, Nat.min_eq_left hx] at *
          omega
      rw [hrl]
      rw [ceilDivNat_step (s.length - i) e (by omega) (by omega)]
      omega
    · rw [writeEvents_unfold, if_neg hi]
      have h0 : s.length - i = 0 := by omega
      rw [h0, ceilDivNat_zero]
      rfl

theorem isPaired_writeEvents (tok hdr s : List Nat) :
    ∀ m i, s.length - i ≤ m → isPaired (writeEvents tok hdr s i) = true := by
  intro m
  induction m with
  | zero =>
    intro i hm
    have hi : ¬ i < s.length := by omega
    rw [writeEvents_unfold, if_neg hi]
    rfl
  | succ m ih =>
    intro i hm
    by_cases hi : i < s.length
    · rw [writeEvents_unfold, if_pos hi]
      have hb : 0 < (chunkBuf tok hdr s i (min (i + (maxLogLength - 2)) s.length)).length := by
        rw [chunkBuf_length]
        omega
      exact ih _ (by omega)
    · rw [writeEvents_unfold, if_neg hi]
      rfl

theorem ceilDivNat_pos (r e : Nat) (hr : 1 ≤ r) (he : 1 ≤ e) : 1 ≤ ceilDivNat r e := by
  rw [ceilDivNat_step r e hr he]
  omega

theorem lastByte_replicate (n a : Nat) : lastByte (List.replicate (n + 1) a) = some a := by
  induction n with
  | zero => rfl
  | succ k ih =>
    rw [List.replicate_succ, List.replicate_succ]
    show lastByte (a :: List.replicate k a) = some a
    rw [← List.replicate_succ]
    exact ih

theorem needTrailNL_of_some (s : List Nat) (b : Nat) (h : lastByte s = some b) :
    needTrailNL s = if b = 10 then false else true := by
  unfold needTrailNL
  rw [h]

/-- C2 evidence at the failing input: a 65001-byte payload exceeds the
65000-byte maximum frame size, yet with a 1-byte token and empty header
the chunking loop of writeToLogEntries performs exactly one physical
write.  The loop advances its index by the full written buffer length
(1 + 1 + 64998 + 1 = 65001 here), not by the 64998 payload bytes the
frame carries, so payload bytes 64998..65000 are stepped over and never
written, and the write count falls below the ceiling of the payload
length over the maxLogLength - 2 payload bytes a bounded frame can
carry, which is 2 for this input. -/
theorem oversize_single_write_bug :
    maxLogLength < (List.replicate 65001 97 : List Nat).length
    ∧ countWrites (writeEvents [116] [] (List.replicate 65001 97) 0) = 1
    ∧ ceilDivNat (List.replicate 65001 97 : List Nat).length (maxLogLength - 2) = 2 := by
  have hlen : (List.replicate 65001 97 : List Nat).length = 65001 :=
    List.length_replicate 65001 97
  have h0 : lastByte (List.replicate 65001 97 : List Nat) = some 97 := by
    rw [show (65001 : Nat) = 65000 + 1 from rfl]
    exact lastByte_replicate 65000 97
  have hnt : needTrailNL (List.replicate 65001 97 : List Nat) = true := by
    rw [needTrailNL_of_some _ 97 h0]
    decide
  refine ⟨by rw [hlen]; decide, ?_, by rw [hlen]; decide⟩
  have h1 := countWrites_writeEvents [116] [] (List.replicate 65001 97)
    (List.replicate 65001 97 : List Nat).length 0 (by omega)
  rw [Nat.sub_zero] at h1
  rw [h1, hlen, perWriteAdvance, hnt]
  decide

theorem escape_replaces_all_but_last_applied :
    1 ≤ countNL [49, 10, 50, 10, 51, 10]
    ∧ countNL ([] : List Nat) = 0
    ∧ countNL (escapeRecord [49, 10, 50, 10, 51, 10]) = 1
    ∧ (escapeRecord [49, 10, 50, 10, 51, 10]).length
        = ([49, 10, 50, 10, 51, 10] : List Nat).length
          + 2 * (countNL [49, 10, 50, 10, 51, 10] - 1)
    ∧ ∃ m, outFrame [116] [] [49, 10, 50, 10, 51, 10] = m ++ [10] ∧ lastByte m ≠ some 10 := by
  have h := escape_replaces_all_but_last [116] [] [49, 10, 50, 10, 51, 10]
    (by decide) (by decide)
  exact ⟨by decide, by decide, h.1, h.2.1, h.2.2.2⟩

theorem framed_output_single_trailing_terminator_applied :
    countNL ([] : List Nat) = 0
    ∧ ([49, 50, 51] : List Nat) ≠ []
    ∧ lastByte [49, 50, 51] ≠ some 10
    ∧ (needTrailNL (escapeRecord [49, 50, 51]) = true
        ∧ ∃ m, outFrame [116] [] [49, 50, 51] = m ++ [10] ∧ lastByte m ≠ some 10)
    ∧ lastByte [49, 10] = some 10
    ∧ (needTrailNL (escapeRecord [49, 10]) = false
        ∧ ∃ m, outFrame [116] [] [49, 10] = m ++ [10] ∧ lastByte m ≠ some 10) := by
  have h1 := framed_output_single_trailing_terminator [116] [] [49, 50, 51] (by decide)
  have h2 := framed_output_single_trailing_terminator [116] [] [49, 10] (by decide)
  exact ⟨by decide, by decide, by decide, h1.1 (by decide) (by decide), by decide,
    h2.2 (by decide)⟩

namespace V1

/-- Error code standing for the distinguished error value ErrClosed
(le: use of closed connection) of the retry-capable variant. -/
def errClosed : Nat := 0

/-- Externally visible actions of the Write method of the retry-capable
variant: one attempt to write a buffer on the connection, closing the
connection, reopening a fresh connection, and an emission to the
diagnostic sink. -/
inductive Ev where
  | writeAttempt : List Nat → Ev
  | closeConn : Ev
  | reopen : Ev
  | diagLog : Ev
deriving DecidableEq

/-- Outcomes of the external steps the Write method can take: the
result of the first conn.Write (none is success, some e is the error
code e), the result of openConnection (an error code or the identifier
of the fresh connection), and the result of the second conn.Write. -/
structure Oracle where
  write1 : Option Nat
  dial : Except Nat Nat
  write2 : Option Nat

/-- makeBuf of the retry-capable variant: token, space byte, prefix
bytes, space byte, the payload with every newline byte replaced by the
U+2028 sequence, and one trailing newline.  The capacity precomputation
in the Go source only sizes the allocation and does not change the
bytes produced. -/
def makeBuf (tok pre p : List Nat) : List Nat :=
  tok ++ [32] ++ pre ++ [32] ++ replaceAllNL p ++ [10]

/-- Write of the retry-capable variant: builds the buffer, then
returns the ErrClosed error without touching any connection when the
handle is closed (conn = none); otherwise writes once and returns
(len p, nil) on success; on a first failure closes the old connection
and reopens: a dial error is returned as (0, dial error) with the conn
field still holding the old connection, otherwise the write is retried
exactly once and (len p, second write error) is returned.  The
returned triple is (result pair, final conn field, event trace). -/
def write (tok pre : List Nat) (conn : Option Nat) (p : List Nat) (o : Oracle) :
    (Nat × Option Nat) × Option Nat × List Ev :=
  match conn with
  | none => ((0, some errClosed), none, [])
  | some c =>
    match o.write1 with
    | none => ((p.length, none), some c, [Ev.writeAttempt (makeBuf tok pre p)])
    | some _ =>
      match o.dial with
      | Except.error e =>
        ((0, some e), some c, [Ev.writeAttempt (makeBuf tok pre p), Ev.closeConn])
      | Except.ok nc =>
        ((p.length, o.write2), some nc,
          [Ev.writeAttempt (makeBuf tok pre p), Ev.closeConn, Ev.reopen,
            Ev.writeAttempt (makeBuf tok pre p)])

/-- Close of the retry-capable variant: a closed handle (conn = none)
yields the ErrClosed error and stays closed; an open handle closes the
connection, returning the connection close result ce, and clears the
conn field. -/
def close (conn : Option Nat) (ce : Option Nat) : Option Nat × Option Nat :=
  match conn with
  | none => (some errClosed, none)
  | some _ => (ce, none)

end V1

/-- C4 counterexample: on a concrete run of the retry-capable Write in
which the first write fails, the reconnect succeeds and the second
write fails as well, the event trace consists of the two write
attempts, the close and the reopen only — no diagnostic-sink emission
occurs anywhere, refuting the part of the claim that says the second
consecutive failure logs the payload and error to the diagnostic sink.
The call still returns control to the caller with the error. -/
theorem retry_second_failure_no_diag_cex :
    (V1.write [116] [] (some 0) [120] ⟨some 1, Except.ok 7, some 2⟩).2.2
        = [V1.Ev.writeAttempt [116, 32, 32, 120, 10], V1.Ev.closeConn, V1.Ev.reopen,
            V1.Ev.writeAttempt [116, 32, 32, 120, 10]]
    ∧ V1.Ev.diagLog ∉ (V1.write [116] [] (some 0) [120] ⟨some 1, Except.ok 7, some 2⟩).2.2
    ∧ (V1.write [116] [] (some 0) [120] ⟨some 1, Except.ok 7, some 2⟩).1 = (1, some 2) := by
  decide

/-- C4 amended: in the retry-capable variant, a first transmission
failure triggers exactly one reconnect and one retry; a second
consecutive failure abandons the record and returns the second write
error (together with the input length) to the caller, with no process
impact — and no diagnostic-sink logging happens in this variant. -/
theorem retry_once_then_return_error (tok pre p : List Nat) (c e1 nc e2 : Nat) :
    V1.write tok pre (some c) p ⟨some e1, Except.ok nc, some e2⟩
      = ((p.length, some e2), some nc,
          [V1.Ev.writeAttempt (V1.makeBuf tok pre p), V1.Ev.closeConn, V1.Ev.reopen,
            V1.Ev.writeAttempt (V1.makeBuf tok pre p)])
    ∧ V1.Ev.diagLog ∉ (V1.write tok pre (some c) p ⟨some e1, Except.ok nc, some e2⟩).2.2
    ∧ V1.Ev.reopen ∈ (V1.write tok pre (some c) p ⟨some e1, Except.ok nc, some e2⟩).2.2 := by
  refine ⟨rfl, ?_, ?_⟩ <;> simp [V1.write]

/-- C8: a Write on a closed handle (conn = nil) returns the
distinguished ErrClosed error with a zero byte count, leaves the handle
closed, and produces no event at all: no nil or invalid connection is
touched, whatever the network oracle would have answered. -/
theorem write_on_closed_returns_closed_error (tok pre p : List Nat) (o : V1.Oracle) :
    V1.write tok pre none p o = ((0, some V1.errClosed), none, []) := rfl

/-- C7: closing an open handle returns the connection close result and
clears the handle; closing again on the now-closed handle returns the
distinguished ErrClosed error.  Both calls are plain total function
applications, so no crash is possible. -/
theorem close_twice_returns_closed_error (c : Nat) (ce ce2 : Option Nat) :
    V1.close (some c) ce = (ce, none)
    ∧ (V1.close (V1.close (some c) ce).2 ce2).1 = some V1.errClosed := ⟨rfl, rfl⟩

/-- C10: the retry-capable Write reports the caller-supplied length
len p on the immediate-success path and on the reconnect-and-retry
success path, even though the bytes put on the wire are the makeBuf
frame, whose length exceeds len p by the token, prefix, two separator
spaces, the trailing newline and two extra bytes per escaped newline. -/
theorem write_reports_input_length (tok pre p : List Nat) (c nc e1 : Nat)
    (d : Except Nat Nat) (w2 : Option Nat) :
    (V1.write tok pre (some c) p ⟨none, d, w2⟩).1 = (p.length, none)
    ∧ (V1.write tok pre (some c) p ⟨some e1, Except.ok nc, none⟩).1 = (p.length, none)
    ∧ (V1.makeBuf tok pre p).length
        = p.length + (tok.length + pre.length + 2 * countNL p + 3)
    ∧ p.length < (V1.makeBuf tok pre p).length := by
  have h3 : (V1.makeBuf tok pre p).length
      = p.length + (tok.length + pre.length + 2 * countNL p + 3) := by
    rw [V1.makeBuf]
    simp only [List.length_append, List.length_singleton, length_replaceAllNL]
    omega
  exact ⟨rfl, rfl, h3, by omega⟩

/-- Possible outcomes of the 1-byte probe read in isOpenConnection:
a timeout-classed network error, a network error whose Timeout method
answers false, end-of-file, a non-network hard error, or a successful
read of unexpected data. -/
inductive ReadOutcome where
  | timeoutNetErr : ReadOutcome
  | nonTimeoutNetErr : ReadOutcome
  | eofErr : ReadOutcome
  | hardErr : ReadOutcome
  | success : ReadOutcome
deriving DecidableEq

/-- Externally visible actions of isOpenConnection: setting the read
deadline to now, the 1-byte read, clearing the read deadline, and
closing the connection. -/
inductive PEv where
  | setDeadlineNow : PEv
  | readByte : PEv
  | clearDeadline : PEv
  | closeConn : PEv
deriving DecidableEq

/-- isOpenConnection of le.go (lines 154-180): a nil connection is not
open; a connection whose age exceeds the 15-minute refresh interval
(stale = true models time.Now().After(lastRefreshAt.Add(15*time.Minute)))
is closed and reported not open without probing; otherwise the read
deadline is set to now and one byte is read: only a network error whose
Timeout() is true makes the probe report the connection open, after
clearing the deadline; every other outcome reports it not open, and the
function returns without closing the socket. -/
def isOpenConn (connPresent stale : Bool) (r : ReadOutcome) : Bool × List PEv :=
  if connPresent = false then (false, [])
  else if stale then (false, [PEv.closeConn])
  else
    match r with
    | ReadOutcome.timeoutNetErr => (true, [PEv.setDeadlineNow, PEv.readByte, PEv.clearDeadline])
    | _ => (false, [PEv.setDeadlineNow, PEv.readByte])

/-- C5 counterexample: for an open, fresh connection whose probe read
returns end-of-file, isOpenConnection reports the connection dead but
closes nothing: no close event occurs, refuting the part of the claim
that says any non-timeout outcome closes the socket. -/
theorem probe_dead_path_no_close_cex :
    (isOpenConn true false ReadOutcome.eofErr).1 = false
    ∧ PEv.closeConn ∉ (isOpenConn true false ReadOutcome.eofErr).2 := by
  decide

/-- C5 amended: for an open, fresh connection the probe reports the
connection alive, clearing the read deadline, exactly when the 1-byte
read fails with a timeout-classed network error; every other outcome
(end-of-file, non-timeout network error, hard error, or a successful
read) reports it dead but leaves the socket open — the probe itself
never closes it.  A connection older than the 15-minute refresh
interval is closed and retired without probing, and an absent
connection reports dead with no action. -/
theorem probe_health_characterization (r : ReadOutcome) (st : Bool) :
    ((isOpenConn true false r).1 = true ↔ r = ReadOutcome.timeoutNetErr)
    ∧ (PEv.clearDeadline ∈ (isOpenConn true false r).2 ↔ r = ReadOutcome.timeoutNetErr)
    ∧ PEv.closeConn ∉ (isOpenConn true false r).2
    ∧ isOpenConn true true r = (false, [PEv.closeConn])
    ∧ isOpenConn false st r = (false, []) := by
  cases r <;> cases st <;> decide

/-- Externally visible actions of a logging call through le.go Output
and its asynchronous transmission: taking an admission slot from the
concurrentWrites pool, the diagnostic emission on a state-guard (mu)
acquisition timeout, the diagnostic emission on a write-lock
acquisition timeout inside writeToLogEntries, the transmission of the
record, and returning the admission slot to the pool. -/
inductive OEv where
  | slotTaken : OEv
  | diagMuTimeout : OEv
  | diagWriteLockTimeout : OEv
  | sendRecord : OEv
  | slotReleased : OEv
deriving DecidableEq

/-- A logging call through le.go Output (lines 224-281) together with
the completed run of its spawned goroutine, as a function of the
admission configuration and of which lock acquisitions time out.
limited tells whether a concurrency limit is configured
(concurrentWrites is non-nil); slots is the number of free admission
slots; muTimeout tells whether the 10-second wait for the state guard
mu times out; writeLockTimeout tells whether the wait for the write
lock inside writeToLogEntries times out.  The result is the number of
free slots after the call and its goroutine have finished, together
with the event trace.  With a limit configured and no free slot, the
select hits its default branch and Output returns at once.  On the
mu-timeout path Output returns before spawning the goroutine, without
returning its slot.  The goroutine returns the slot after
writeToLogEntries finishes, whether or not the write lock timed out. -/
def outputRun (limited : Bool) (slots : Nat) (muTimeout writeLockTimeout : Bool) :
    Nat × List OEv :=
  if limited then
    if slots = 0 then (0, [])
    else
      if muTimeout then (slots - 1, [OEv.slotTaken, OEv.diagMuTimeout])
      else if writeLockTimeout then
        (slots - 1 + 1, [OEv.slotTaken, OEv.diagWriteLockTimeout, OEv.slotReleased])
      else (slots - 1 + 1, [OEv.slotTaken, OEv.sendRecord, OEv.slotReleased])
  else
    if muTimeout then (slots, [OEv.diagMuTimeout])
    else if writeLockTimeout then (slots, [OEv.diagWriteLockTimeout])
    else (slots, [OEv.sendRecord])

/-- C6: with a concurrency limit configured and no free admission slot
at the moment of the call, Output returns at once with an empty event
trace: no record is transmitted, nothing is queued, no diagnostic is
emitted (the drop is silent), and the slot count is unchanged —
whatever the lock acquisitions would have done. -/
theorem admission_exhausted_drops_silently (muT wlT : Bool) :
    outputRun true 0 muT wlT = (0, [])
    ∧ OEv.sendRecord ∉ (outputRun true 0 muT wlT).2 := by
  cases muT <;> cases wlT <;> decide

/-- C9 counterexample: with a limit configured, one free slot and a
state-guard acquisition timeout, the call ends with zero free slots:
the acquired admission slot is not returned on this abandonment path,
refuting the claim that the slot count returns to its pre-call value on
every outcome. -/
theorem slot_leak_on_mu_timeout_cex :
    (outputRun true 1 true false).1 = 0
    ∧ (outputRun true 1 true false).1 ≠ 1 := by
  decide

/-- C9 amended: with a concurrency limit configured and at least one
free slot, the admission slot taken by a logging call is returned after
the asynchronous transmission completes — including when the
transmission abandons on a write-lock acquisition timeout — so the
free-slot count returns to its pre-call value; but on the state-guard
(mu) acquisition timeout path Output returns without releasing the
slot, leaving the free-slot count one below its pre-call value. -/
theorem slot_release_characterization (s : Nat) (wlT : Bool) :
    (outputRun true (s + 1) false wlT).1 = s + 1
    ∧ OEv.slotReleased ∈ (outputRun true (s + 1) false wlT).2
    ∧ (outputRun true (s + 1) true wlT).1 = s
    ∧ OEv.slotReleased ∉ (outputRun true (s + 1) true wlT).2 := by
  cases wlT <;> simp [outputRun]

theorem writeEvents_single_chunk (tok hdr s : List Nat) (h1 : s ≠ [])
    (h2 : s.length ≤ maxLogLength - 2) :
    writeEvents tok hdr s 0 = [WEvent.setDeadline, WEvent.write (frameBuf tok hdr s)] := by
  have hl : 0 < s.length := List.length_pos.mpr h1
  have hmin : min (0 + (maxLogLength - 2)) s.length = s.length :=
    Nat.min_eq_right (by omega)
  have hge : s.length ≤ (chunkBuf tok hdr s 0 s.length).length := by
    have hfe := frameBuf_eq tok hdr s
    rw [frameBuf] at hfe
    rw [hfe]
    simp only [List.length_append, List.length_cons]
    omega
  rw [writeEvents_unfold, if_pos hl, hmin, writeEvents_unfold, if_neg (by omega), frameBuf]
